import Mathlib

/-!
Verification of `scripts/fix-concept-maps.py`.

The script walks six chapter directories; in each one it loads
`concept-map.yml`, normalizes every exam-question reference to
`questions/<basename>`, creates a stub file (with a fixed template) for
every reference whose target file does not exist, and rewrites the
concept map file only when some reference string changed.

The embedding below models:
  * a YAML concept-map document as nested structures (`Doc`, `Category`,
    `Concept`); a field that may be absent in the mapping is an `Option`,
    mirroring Python's `dict.get(key, [])`; all keys other than the ones
    the script touches are collected, order preserved, in `others`;
  * a chapter's `questions/` directory as an association list of
    (filename, file content) pairs, `mkdir(exist_ok=True)` having ensured
    the directory itself exists;
  * `os.path.basename` (POSIX) as the longest suffix with no `'/'`;
  * `Path.exists()` on `chapter/questions/<name>`: true when `name` is in
    the directory listing, and also for the names `""`, `"."` and `".."`,
    for which the joined path resolves to an existing directory
    (`pathlib` drops empty path segments, and the kernel resolves `.`
    and `..`);
  * `fix_concept_map`'s early `return` (returning Python `None`) as
    `Option.none`, and the `TypeError` that `main`'s tuple unpacking
    raises on that `None` as `Except.error`.
-/

namespace ConceptMaps

/-- Model of `os.path.basename` on POSIX paths: everything after the last
slash, i.e. the longest suffix of the string containing no `'/'`. -/
def basename (s : String) : String :=
  ⟨(s.data.reverse.takeWhile (fun c => c ≠ '/')).reverse⟩

/-- The canonical form the script rewrites every reference to:
`expected_path = f"questions/{just_filename}"`. -/
def expectedPath (q : String) : String :=
  "questions/" ++ basename q

/-- The verbatim stub template `STUB_TEMPLATE` from the script. -/
def STUB_TEMPLATE : String :=
  "id: 1\nquestion: \"TODO: Add question text\"\nanswer: \"TODO: Add answer\"\nvocab_answer: []\nanswer_kindergarten: \"TODO: Add kindergarten-level answer\"\nvocab_kindergarten: []\nanswer_3rd_grade: \"TODO: Add 3rd grade-level answer\"\nvocab_3rd_grade: []\nanswer_7th_grade: \"TODO: Add 7th grade-level answer\"\nvocab_7th_grade: []\nanswer_high_school: \"TODO: Add high school-level answer\"\nvocab_high_school: []\nanswer_undergraduate: \"TODO: Add undergraduate-level answer\"\nvocab_undergraduate: []\ntopics: []\ntype: \"conceptual\"\npoints: 3\ndifficulty: \"medium\"\nlearning_objectives: []\n"

/-- A concept mapping: the `exam_questions` key (absent = `none`,
mirroring `concept.get('exam_questions', [])`) plus every other key of
the mapping, untouched by the script. -/
structure Concept where
  exam_questions : Option (List String)
  others : List (String × String)
deriving DecidableEq, Repr

/-- A category mapping: the `concepts` key plus the untouched rest. -/
structure Category where
  concepts : Option (List Concept)
  others : List (String × String)
deriving DecidableEq, Repr

/-- A loaded concept-map document: the top-level `concept_map` key plus
the untouched rest. -/
structure Doc where
  concept_map : Option (List Category)
  others : List (String × String)
deriving DecidableEq, Repr

/-- The exam-question references listed by one concept
(`concept.get('exam_questions', [])`). -/
def conceptRefs (c : Concept) : List String :=
  c.exam_questions.getD []

/-- All references listed under one category. -/
def categoryRefs (cat : Category) : List String :=
  ((cat.concepts.getD []).map conceptRefs).flatten

/-- All references of a document, in the script's processing order. -/
def allRefs (d : Doc) : List String :=
  ((d.concept_map.getD []).map categoryRefs).flatten

/-- Names present in a directory listing. -/
def fileNames (fs : List (String × String)) : List String :=
  fs.map Prod.fst

/-- `Path.exists()` for `chapter/questions/<n>`: the names `""`, `"."`
and `".."` denote the (existing) `questions` or chapter directory
itself; any other name exists exactly when it is in the listing. -/
def fileExists (fs : List (String × String)) (n : String) : Bool :=
  n = "" || n = "." || n = ".." || decide (n ∈ fileNames fs)

/-- The mutable state of one `fix_concept_map` run: the `questions/`
directory contents and the script's `fixed_count`, `missing_count` and
`updated` variables. -/
structure RunState where
  fs : List (String × String)
  fixedCount : Nat
  missingCount : Nat
  updated : Bool
deriving DecidableEq, Repr

/-- One iteration of the inner loop of `fix_concept_map`: strip the
directory prefix, rewrite the reference if it differs from the expected
path, and write the stub template when the target file does not exist.
Returns the new state and the value left at this list position. -/
def processRef (st : RunState) (q : String) : RunState × String :=
  let b := basename q
  let expected := expectedPath q
  let st1 := if q = expected then st
    else { st with updated := true, fixedCount := st.fixedCount + 1 }
  let st2 := if fileExists st1.fs b then st1
    else { st1 with fs := st1.fs ++ [(b, STUB_TEMPLATE)],
                    missingCount := st1.missingCount + 1 }
  (st2, expected)

/-- Left-to-right traversal of a list with a state-passing element
processor, mirroring the script's nested `for` loops. -/
def processList {α : Type} (f : RunState → α → RunState × α) :
    RunState → List α → RunState × List α
  | st, [] => (st, [])
  | st, x :: xs =>
    let p := f st x
    let ps := processList f p.1 xs
    (ps.1, p.2 :: ps.2)

/-- The `for i, question_file in enumerate(exam_questions)` loop. -/
def processQuestions (st : RunState) (qs : List String) :
    RunState × List String :=
  processList processRef st qs

/-- Processing one concept: iterate its exam-question list in place if
the key is present; a missing key contributes nothing. -/
def processConcept (st : RunState) (c : Concept) : RunState × Concept :=
  match c.exam_questions with
  | none => (st, c)
  | some qs =>
    let p := processQuestions st qs
    (p.1, { c with exam_questions := some p.2 })

/-- Processing one category: iterate its concepts if the key is present. -/
def processCategory (st : RunState) (cat : Category) : RunState × Category :=
  match cat.concepts with
  | none => (st, cat)
  | some cs =>
    let p := processList processConcept st cs
    (p.1, { cat with concepts := some p.2 })

/-- Processing a whole document (`for category in data.get('concept_map', [])`). -/
def processDoc (st : RunState) (d : Doc) : RunState × Doc :=
  match d.concept_map with
  | none => (st, d)
  | some cats =>
    let p := processList processCategory st cats
    (p.1, { d with concept_map := some p.2 })

/-- A chapter directory: the parsed `concept-map.yml` (`none` when the
file is absent), the raw bytes of that file, and the contents of the
`questions/` directory. -/
structure Chapter where
  conceptMap : Option Doc
  cmBytes : String
  questions : List (String × String)
deriving DecidableEq, Repr

/-- Model of `yaml.dump(data, default_flow_style=False,
allow_unicode=True, sort_keys=False)`: a deterministic block-style
rendering that keeps key order. -/
def serializeOthers (kvs : List (String × String)) : String :=
  String.join (kvs.map (fun kv => kv.1 ++ ": " ++ kv.2 ++ "\n"))

/-- Block-style rendering of one concept. -/
def serializeConcept (c : Concept) : String :=
  (match c.exam_questions with
   | none => ""
   | some qs =>
     "exam_questions:\n" ++ String.join (qs.map (fun q => "- " ++ q ++ "\n")))
  ++ serializeOthers c.others

/-- Block-style rendering of one category. -/
def serializeCategory (cat : Category) : String :=
  (match cat.concepts with
   | none => ""
   | some cs => "concepts:\n" ++ String.join (cs.map serializeConcept))
  ++ serializeOthers cat.others

/-- Block-style rendering of a document. -/
def serializeDoc (d : Doc) : String :=
  (match d.concept_map with
   | none => ""
   | some cats => "concept_map:\n" ++ String.join (cats.map serializeCategory))
  ++ serializeOthers d.others

/-- The value `fix_concept_map` produces: the returned pair
`(fixed_count, missing_count)`, the `updated` flag that decided the
write-back, and the chapter directory as left on storage. -/
structure FixResult where
  fixedCount : Nat
  missingCount : Nat
  rewrote : Bool
  chapter : Chapter
deriving DecidableEq, Repr

/-- `fix_concept_map(chapter_dir)`. When `concept-map.yml` is absent the
function logs and returns Python `None` (modelled as `none`); otherwise
it processes the document and returns the two counters. The file on
storage is rewritten (with the serialized mutated document) only when
`updated` is set. -/
def fixConceptMap (ch : Chapter) : Option FixResult :=
  match ch.conceptMap with
  | none => none
  | some doc =>
    let p := processDoc { fs := ch.questions, fixedCount := 0,
                          missingCount := 0, updated := false } doc
    some { fixedCount := p.1.fixedCount
           missingCount := p.1.missingCount
           rewrote := p.1.updated
           chapter :=
             { conceptMap := some (if p.1.updated then p.2 else doc)
               cmBytes := if p.1.updated then serializeDoc p.2 else ch.cmBytes
               questions := p.1.fs } }

/-- The driver loop of `main()` over the chapter directories
(`none` = the directory does not exist and is skipped). Unpacking the
`None` returned by `fix_concept_map` raises a `TypeError`, which aborts
the whole run. -/
def runChapters : List (Option Chapter) →
    Except String (Nat × Nat × List (Option Chapter))
  | [] => Except.ok (0, 0, [])
  | none :: rest =>
    match runChapters rest with
    | Except.error e => Except.error e
    | Except.ok (f, s, r) => Except.ok (f, s, none :: r)
  | some ch :: rest =>
    match fixConceptMap ch with
    | none => Except.error "TypeError: cannot unpack non-iterable NoneType object"
    | some res =>
      match runChapters rest with
      | Except.error e => Except.error e
      | Except.ok (f, s, r) =>
        Except.ok (res.fixedCount + f, res.missingCount + s,
          some res.chapter :: r)

/-- Boolean test for a reference that is not in canonical form, i.e. one
the script will rewrite. -/
def needsFix (q : String) : Bool := decide (q ≠ expectedPath q)

/-- Pointwise renaming of the references of a concept; every other part
of the concept is untouched. -/
def mapConceptRefs (f : String → String) (c : Concept) : Concept :=
  { c with exam_questions := c.exam_questions.map (List.map f) }

/-- Pointwise renaming of the references below a category. -/
def mapCategoryRefs (f : String → String) (cat : Category) : Category :=
  { cat with concepts := cat.concepts.map (List.map (mapConceptRefs f)) }

/-- Pointwise renaming of the references of a document: the in-place
element assignment `exam_questions[i] = expected_path` performed on every
reference, with every key and every list length kept intact. -/
def mapDocRefs (f : String → String) (d : Doc) : Doc :=
  { d with concept_map := d.concept_map.map (List.map (mapCategoryRefs f)) }

/-- Concrete example document: one category, one concept, one reference
needing a path fix (`old/q1.yml`) and one already canonical
(`questions/q2.yml`). -/
def exDoc : Doc :=
  { concept_map := some [
      { concepts := some [
          { exam_questions := some ["old/q1.yml", "questions/q2.yml"],
            others := [("name", "C")] } ],
        others := [("category", "Basics")] } ],
    others := [("title", "Ch")] }

/-- Concrete example chapter around `exDoc`: the target of `q2.yml`
exists, the target of `q1.yml` does not. -/
def exChapter : Chapter :=
  { conceptMap := some exDoc, cmBytes := "orig",
    questions := [("q2.yml", "existing")] }

/-- `exDoc` after processing: both references canonical. -/
def exDocAfter : Doc :=
  { concept_map := some [
      { concepts := some [
          { exam_questions := some ["questions/q1.yml", "questions/q2.yml"],
            others := [("name", "C")] } ],
        others := [("category", "Basics")] } ],
    others := [("title", "Ch")] }

/-- The run of `fix_concept_map` on `exChapter`: one path fixed, one stub
created, document rewritten. -/
def exResult : FixResult :=
  { fixedCount := 1, missingCount := 1, rewrote := true,
    chapter := { conceptMap := some exDocAfter,
                 cmBytes := serializeDoc exDocAfter,
                 questions := [("q2.yml", "existing"), ("q1.yml", STUB_TEMPLATE)] } }

/-- A chapter directory that exists but holds no `concept-map.yml`. -/
def missingMapChapter : Chapter :=
  { conceptMap := none, cmBytes := "", questions := [] }

/-- A well-formed chapter directory following `missingMapChapter`. -/
def nextChapter : Chapter :=
  { conceptMap := some { concept_map := some [], others := [] },
    cmBytes := "concept_map: []\n", questions := [] }

/-- A chapter whose concept-map document lacks the `concept_map` key. -/
def exChapterNoKeys : Chapter :=
  { conceptMap := some { concept_map := none, others := [("title", "T")] },
    cmBytes := "title: T\n", questions := [] }

theorem basename_no_slash (s : String) : ∀ c ∈ (basename s).data, c ≠ '/' := by
  intro c hc
  have hc' : c ∈ s.data.reverse.takeWhile (fun c => c ≠ '/') := by
    simpa [basename] using hc
  simpa using List.mem_takeWhile_imp hc'

theorem takeWhile_all_append {α : Type} (p : α → Bool) (l : List α) (x : α)
    (t : List α) (hl : ∀ c ∈ l, p c = true) (hx : p x = false) :
    (l ++ x :: t).takeWhile p = l := by
  induction l with
  | nil => simp [List.takeWhile_cons, hx]
  | cons a l ih =>
    simp [List.takeWhile_cons, hl a (List.mem_cons_self _ _),
      ih (fun c hc => hl c (List.mem_cons_of_mem _ hc))]

theorem basename_of_no_slash_append (b : String) (hb : ∀ c ∈ b.data, c ≠ '/') :
    basename ("questions/" ++ b) = b := by
  have h0 : ("questions/" ++ b).data.reverse
      = b.data.reverse ++ '/' :: "questions".data.reverse := by
    have hq : ("questions/" : String).data = "questions".data ++ ['/'] := by decide
    simp [hq]
  have hmem : ∀ c ∈ b.data.reverse, c ≠ '/' := fun c hc => hb c (List.mem_reverse.mp hc)
  obtain ⟨l⟩ := b
  show String.mk _ = String.mk l
  congr 1
  rw [h0, takeWhile_all_append _ _ _ _ (fun c hc => by simpa using hmem c hc) (by decide),
    List.reverse_reverse]

theorem basename_expectedPath (q : String) : basename (expectedPath q) = basename q :=
  basename_of_no_slash_append (basename q) (basename_no_slash q)

theorem expectedPath_idem (q : String) : expectedPath (expectedPath q) = expectedPath q := by
  show "questions/" ++ basename (expectedPath q) = expectedPath q
  rw [basename_expectedPath]
  rfl

theorem needsFix_expectedPath (q : String) : needsFix (expectedPath q) = false := by
  simp [needsFix, expectedPath_idem q]

theorem fileExists_of_mem (fs : List (String × String)) (n : String)
    (h : n ∈ fileNames fs) : fileExists fs n = true := by
  simp [fileExists, h]

theorem fileExists_append_left (fs more : List (String × String)) (n : String)
    (h : fileExists fs n = true) : fileExists (fs ++ more) n = true := by
  simp only [fileExists, fileNames, Bool.or_eq_true, decide_eq_true_eq] at h ⊢
  rcases h with h | h
  · exact Or.inl h
  · exact Or.inr (by simp only [List.map_append, List.mem_append]; exact Or.inl h)

theorem processRef_eq (st : RunState) (q : String) :
    processRef st q =
      ({ fs := if fileExists st.fs (basename q) then st.fs
               else st.fs ++ [(basename q, STUB_TEMPLATE)],
         fixedCount := st.fixedCount + (if needsFix q then 1 else 0),
         missingCount := st.missingCount +
           (if fileExists st.fs (basename q) then 0 else 1),
         updated := st.updated || needsFix q },
       expectedPath q) := by
  unfold processRef
  dsimp only
  by_cases h1 : q = expectedPath q
  · have hnf : needsFix q = false := decide_eq_false (not_not_intro h1)
    rw [if_pos h1, hnf]
    by_cases h2 : fileExists st.fs (basename q) = true <;> simp [h2]
  · have hnf : needsFix q = true := decide_eq_true h1
    rw [if_neg h1, hnf]
    by_cases h2 : fileExists st.fs (basename q) = true <;> simp [h2]

theorem processQuestions_cons (st : RunState) (q : String) (qs : List String) :
    processQuestions st (q :: qs) =
      ((processQuestions (processRef st q).1 qs).1,
       (processRef st q).2 :: (processQuestions (processRef st q).1 qs).2) := rfl

theorem pq_snd (qs : List String) (st : RunState) :
    (processQuestions st qs).2 = qs.map expectedPath := by
  induction qs generalizing st with
  | nil => rfl
  | cons q qs ih =>
    rw [processQuestions_cons]
    simp [processRef_eq, ih]

theorem pq_fixed (qs : List String) (st : RunState) :
    (processQuestions st qs).1.fixedCount = st.fixedCount + qs.countP needsFix := by
  induction qs generalizing st with
  | nil => simp [processQuestions, processList]
  | cons q qs ih =>
    rw [processQuestions_cons]
    dsimp only
    rw [ih, processRef_eq, List.countP_cons]
    by_cases hq : needsFix q = true <;> (simp [hq]; try omega)

theorem pq_updated (qs : List String) (st : RunState) :
    (processQuestions st qs).1.updated = (st.updated || qs.any needsFix) := by
  induction qs generalizing st with
  | nil => simp [processQuestions, processList]
  | cons q qs ih =>
    rw [processQuestions_cons]
    dsimp only
    rw [ih, processRef_eq, List.any_cons]
    simp [Bool.or_assoc]

theorem pq_mono (qs : List String) (st : RunState) (n : String)
    (h : fileExists st.fs n = true) :
    fileExists (processQuestions st qs).1.fs n = true := by
  induction qs generalizing st with
  | nil => exact h
  | cons q qs ih =>
    rw [processQuestions_cons]
    dsimp only
    apply ih
    by_cases h2 : fileExists st.fs (basename q) = true
    · simpa [processRef_eq, h2] using h
    · simp only [processRef_eq, if_neg h2]
      exact fileExists_append_left _ _ _ h

theorem pq_exists (qs : List String) (st : RunState) :
    ∀ q ∈ qs, fileExists (processQuestions st qs).1.fs (basename q) = true := by
  induction qs generalizing st with
  | nil => intro q hq; cases hq
  | cons q qs ih =>
    intro x hx
    rw [processQuestions_cons]
    dsimp only
    rcases List.mem_cons.mp hx with rfl | hx'
    · apply pq_mono
      rw [processRef_eq]
      dsimp only
      by_cases h2 : fileExists st.fs (basename x) = true
      · simp [h2]
      · rw [if_neg h2]
        apply fileExists_of_mem
        simp [fileNames]
    · exact ih _ x hx'

theorem pq_fs_missing (qs : List String) (st : RunState) :
    ∃ new : List (String × String),
      (processQuestions st qs).1.fs = st.fs ++ new ∧
      (processQuestions st qs).1.missingCount = st.missingCount + new.length ∧
      (fileNames new).Nodup ∧
      ∀ p ∈ new, p.2 = STUB_TEMPLATE ∧ fileExists st.fs p.1 = false := by
  induction qs generalizing st with
  | nil =>
    exact ⟨[], by simp [processQuestions, processList],
      by simp [processQuestions, processList], by simp [fileNames], by simp⟩
  | cons q qs ih =>
    obtain ⟨new', hfs, hmc, hnd, hpr⟩ := ih (processRef st q).1
    by_cases h2 : fileExists st.fs (basename q) = true
    · have e1 : (processRef st q).1.fs = st.fs := by rw [processRef_eq]; simp [h2]
      have e2 : (processRef st q).1.missingCount = st.missingCount := by
        rw [processRef_eq]; simp [h2]
      refine ⟨new', ?_, ?_, hnd, ?_⟩
      · rw [processQuestions_cons]; dsimp only; rw [hfs, e1]
      · rw [processQuestions_cons]; dsimp only; rw [hmc, e2]
      · intro p hp
        exact ⟨(hpr p hp).1, by rw [← e1]; exact (hpr p hp).2⟩
    · have e1 : (processRef st q).1.fs = st.fs ++ [(basename q, STUB_TEMPLATE)] := by
        rw [processRef_eq]; simp [h2]
      have e2 : (processRef st q).1.missingCount = st.missingCount + 1 := by
        rw [processRef_eq]; simp [h2]
      refine ⟨(basename q, STUB_TEMPLATE) :: new', ?_, ?_, ?_, ?_⟩
      · rw [processQuestions_cons]; dsimp only; rw [hfs, e1]; simp
      · rw [processQuestions_cons]; dsimp only; rw [hmc, e2]
        simp only [List.length_cons]; omega
      · refine List.nodup_cons.mpr ⟨fun hbmem => ?_, hnd⟩
        obtain ⟨p, hp, hp1⟩ := List.mem_map.mp hbmem
        have hfalse := (hpr p hp).2
        rw [e1] at hfalse
        have hmem : p.1 ∈ fileNames (st.fs ++ [(basename q, STUB_TEMPLATE)]) := by
          simp [fileNames, hp1]
        rw [fileExists_of_mem _ _ hmem] at hfalse
        cases hfalse
      · intro p hp
        rcases List.mem_cons.mp hp with rfl | hp'
        · exact ⟨rfl, by simpa using h2⟩
        · refine ⟨(hpr p hp').1, ?_⟩
          cases hb : fileExists st.fs p.1
          · rfl
          · exfalso
            have h3 := fileExists_append_left st.fs [(basename q, STUB_TEMPLATE)] p.1 hb
            rw [← e1] at h3
            rw [(hpr p hp').2] at h3
            cases h3

theorem processList_cons {α : Type} (f : RunState → α → RunState × α)
    (st : RunState) (x : α) (xs : List α) :
    processList f st (x :: xs) =
      ((processList f (f st x).1 xs).1,
       (f st x).2 :: (processList f (f st x).1 xs).2) := rfl

theorem processQuestions_append_fst (a b : List String) (st : RunState) :
    (processQuestions st (a ++ b)).1 =
      (processQuestions (processQuestions st a).1 b).1 := by
  induction a generalizing st with
  | nil => rfl
  | cons x a ih =>
    rw [List.cons_append, processQuestions_cons, processQuestions_cons]
    dsimp only
    exact ih _

theorem processConcept_eq (st : RunState) (c : Concept) :
    processConcept st c =
      ((processQuestions st (conceptRefs c)).1, mapConceptRefs expectedPath c) := by
  obtain ⟨oqs, os⟩ := c
  cases oqs with
  | none => rfl
  | some qs => simp [processConcept, conceptRefs, mapConceptRefs, pq_snd]

theorem processConcepts_eq (cs : List Concept) (st : RunState) :
    processList processConcept st cs =
      ((processQuestions st ((cs.map conceptRefs).flatten)).1,
       cs.map (mapConceptRefs expectedPath)) := by
  induction cs generalizing st with
  | nil => rfl
  | cons c cs ih =>
    rw [processList_cons, processConcept_eq]
    dsimp only
    rw [ih]
    simp only [List.map_cons, List.flatten_cons, processQuestions_append_fst]

theorem processCategory_eq (st : RunState) (cat : Category) :
    processCategory st cat =
      ((processQuestions st (categoryRefs cat)).1, mapCategoryRefs expectedPath cat) := by
  obtain ⟨ocs, os⟩ := cat
  cases ocs with
  | none => rfl
  | some cs => simp [processCategory, categoryRefs, mapCategoryRefs, processConcepts_eq]

theorem processCategories_eq (cats : List Category) (st : RunState) :
    processList processCategory st cats =
      ((processQuestions st ((cats.map categoryRefs).flatten)).1,
       cats.map (mapCategoryRefs expectedPath)) := by
  induction cats generalizing st with
  | nil => rfl
  | cons cat cats ih =>
    rw [processList_cons, processCategory_eq]
    dsimp only
    rw [ih]
    simp only [List.map_cons, List.flatten_cons, processQuestions_append_fst]

theorem processDoc_eq (st : RunState) (d : Doc) :
    processDoc st d =
      ((processQuestions st (allRefs d)).1, mapDocRefs expectedPath d) := by
  obtain ⟨ocats, os⟩ := d
  cases ocats with
  | none => rfl
  | some cats => simp [processDoc, allRefs, mapDocRefs, processCategories_eq]

theorem conceptRefs_map (f : String → String) (c : Concept) :
    conceptRefs (mapConceptRefs f c) = (conceptRefs c).map f := by
  obtain ⟨oqs, os⟩ := c
  cases oqs <;> simp [conceptRefs, mapConceptRefs]

theorem categoryRefs_map (f : String → String) (cat : Category) :
    categoryRefs (mapCategoryRefs f cat) = (categoryRefs cat).map f := by
  obtain ⟨ocs, os⟩ := cat
  cases ocs with
  | none => simp [categoryRefs, mapCategoryRefs]
  | some cs =>
    simp only [categoryRefs, mapCategoryRefs, Option.map_some', Option.getD_some,
      List.map_map, List.map_flatten]
    congr 1
    apply List.map_congr_left
    intro c _
    exact conceptRefs_map f c

theorem allRefs_map (f : String → String) (d : Doc) :
    allRefs (mapDocRefs f d) = (allRefs d).map f := by
  obtain ⟨ocats, os⟩ := d
  cases ocats with
  | none => simp [allRefs, mapDocRefs]
  | some cats =>
    simp only [allRefs, mapDocRefs, Option.map_some', Option.getD_some,
      List.map_map, List.map_flatten]
    congr 1
    apply List.map_congr_left
    intro cat _
    exact categoryRefs_map f cat

theorem map_refs_id {f : String → String} {qs : List String}
    (h : ∀ q ∈ qs, f q = q) : qs.map f = qs :=
  (List.map_congr_left h).trans (List.map_id qs)

theorem mapConceptRefs_self (f : String → String) (c : Concept)
    (h : ∀ q ∈ conceptRefs c, f q = q) : mapConceptRefs f c = c := by
  obtain ⟨oqs, os⟩ := c
  cases oqs with
  | none => rfl
  | some qs =>
    simp only [mapConceptRefs, Option.map_some']
    rw [map_refs_id (fun q hq => h q hq : ∀ q ∈ qs, f q = q)]

theorem mapCategoryRefs_self (f : String → String) (cat : Category)
    (h : ∀ q ∈ categoryRefs cat, f q = q) : mapCategoryRefs f cat = cat := by
  obtain ⟨ocs, os⟩ := cat
  cases ocs with
  | none => rfl
  | some cs =>
    simp only [mapCategoryRefs, Option.map_some']
    have hcs : cs.map (mapConceptRefs f) = cs := by
      refine (List.map_congr_left ?_).trans (List.map_id cs)
      intro c hc
      refine mapConceptRefs_self f c (fun q hq => h q ?_)
      exact List.mem_flatten_of_mem (List.mem_map_of_mem _ hc) hq
    rw [hcs]

theorem mapDocRefs_self (f : String → String) (d : Doc)
    (h : ∀ q ∈ allRefs d, f q = q) : mapDocRefs f d = d := by
  obtain ⟨ocats, os⟩ := d
  cases ocats with
  | none => rfl
  | some cats =>
    simp only [mapDocRefs, Option.map_some']
    have hcats : cats.map (mapCategoryRefs f) = cats := by
      refine (List.map_congr_left ?_).trans (List.map_id cats)
      intro cat hc
      refine mapCategoryRefs_self f cat (fun q hq => h q ?_)
      exact List.mem_flatten_of_mem (List.mem_map_of_mem _ hc) hq
    rw [hcats]

theorem eq_of_needsFix_false {q : String} (h : needsFix q = false) :
    q = expectedPath q :=
  not_not.mp (of_decide_eq_false h)

theorem processQuestions_fix (qs : List String) (st : RunState)
    (h : ∀ q ∈ qs, needsFix q = false ∧ fileExists st.fs (basename q) = true) :
    processQuestions st qs = (st, qs) := by
  induction qs generalizing st with
  | nil => rfl
  | cons q qs ih =>
    obtain ⟨h1, h2⟩ := h q (List.mem_cons_self _ _)
    have hq : q = expectedPath q := eq_of_needsFix_false h1
    have hpr : processRef st q = (st, q) := by
      rw [processRef_eq]
      simp [h1, h2, ← hq]
    rw [processQuestions_cons, hpr]
    dsimp only
    rw [ih _ (fun x hx => h x (List.mem_cons_of_mem _ hx))]

theorem processDoc_fix (d : Doc) (st : RunState)
    (h : ∀ q ∈ allRefs d, needsFix q = false ∧ fileExists st.fs (basename q) = true) :
    processDoc st d = (st, d) := by
  rw [processDoc_eq, processQuestions_fix (allRefs d) st h,
    mapDocRefs_self _ _ (fun q hq => (eq_of_needsFix_false (h q hq).1).symm)]

theorem fixConceptMap_some_eq (doc : Doc) (bytes : String)
    (qfs : List (String × String)) :
    fixConceptMap ⟨some doc, bytes, qfs⟩ =
      some { fixedCount := (processDoc ⟨qfs, 0, 0, false⟩ doc).1.fixedCount,
             missingCount := (processDoc ⟨qfs, 0, 0, false⟩ doc).1.missingCount,
             rewrote := (processDoc ⟨qfs, 0, 0, false⟩ doc).1.updated,
             chapter :=
               { conceptMap := some (if (processDoc ⟨qfs, 0, 0, false⟩ doc).1.updated
                   then (processDoc ⟨qfs, 0, 0, false⟩ doc).2 else doc),
                 cmBytes := if (processDoc ⟨qfs, 0, 0, false⟩ doc).1.updated
                   then serializeDoc (processDoc ⟨qfs, 0, 0, false⟩ doc).2 else bytes,
                 questions := (processDoc ⟨qfs, 0, 0, false⟩ doc).1.fs } } := rfl

theorem fixConceptMap_spec (ch : Chapter) (doc : Doc) (h : ch.conceptMap = some doc) :
    ∃ new : List (String × String),
      fixConceptMap ch =
        some { fixedCount := (allRefs doc).countP needsFix,
               missingCount := new.length,
               rewrote := (allRefs doc).any needsFix,
               chapter :=
                 { conceptMap := some (if (allRefs doc).any needsFix = true
                     then mapDocRefs expectedPath doc else doc),
                   cmBytes := if (allRefs doc).any needsFix = true
                     then serializeDoc (mapDocRefs expectedPath doc) else ch.cmBytes,
                   questions := ch.questions ++ new } } ∧
      (fileNames new).Nodup ∧
      (∀ p ∈ new, p.2 = STUB_TEMPLATE ∧ fileExists ch.questions p.1 = false) ∧
      (∀ q ∈ allRefs doc, fileExists (ch.questions ++ new) (basename q) = true) := by
  obtain ⟨cm, bytes, qfs⟩ := ch
  have hcm : cm = some doc := h
  subst hcm
  obtain ⟨new, hfs, hmc, hnd, hpr⟩ :=
    pq_fs_missing (allRefs doc) ⟨qfs, 0, 0, false⟩
  refine ⟨new, ?_, hnd, hpr, ?_⟩
  · rw [fixConceptMap_some_eq]
    simp only [processDoc_eq]
    simp only [pq_fixed, pq_updated, Bool.false_or, Nat.zero_add]
    rw [hfs, hmc]
    simp
  · intro q hq
    have hx := pq_exists (allRefs doc) ⟨qfs, 0, 0, false⟩ q hq
    rw [hfs] at hx
    exact hx

theorem fixConceptMap_none_eq (bytes : String) (qfs : List (String × String)) :
    fixConceptMap ⟨none, bytes, qfs⟩ = none := rfl

theorem all_canonical_of_any_false {l : List String}
    (h : ¬l.any needsFix = true) : ∀ x ∈ l, needsFix x = false := by
  have h0 : l.any needsFix = false := by simpa using h
  intro x hx
  simpa using List.any_eq_false.mp h0 x hx

theorem post_state_canonical (doc : Doc) (fs2 : List (String × String))
    (hex : ∀ q ∈ allRefs doc, fileExists fs2 (basename q) = true) :
    ∀ q2 ∈ allRefs (if (allRefs doc).any needsFix = true
        then mapDocRefs expectedPath doc else doc),
      needsFix q2 = false ∧ fileExists fs2 (basename q2) = true := by
  intro q2 hq2
  by_cases hub : (allRefs doc).any needsFix = true
  · rw [if_pos hub, allRefs_map] at hq2
    obtain ⟨q, hq, rfl⟩ := List.mem_map.mp hq2
    exact ⟨needsFix_expectedPath q, by rw [basename_expectedPath]; exact hex q hq⟩
  · rw [if_neg hub] at hq2
    exact ⟨all_canonical_of_any_false hub q2 hq2, hex q2 hq2⟩

theorem allRefs_nil_of_missing_keys (doc : Doc)
    (hmiss : doc.concept_map = none ∨
      (∀ cat ∈ doc.concept_map.getD [], cat.concepts = none) ∨
      (∀ cat ∈ doc.concept_map.getD [], ∀ c ∈ cat.concepts.getD [],
        c.exam_questions = none)) :
    allRefs doc = [] := by
  rcases hmiss with h1 | h2 | h3
  · simp [allRefs, h1]
  · rw [allRefs, List.flatten_eq_nil_iff]
    intro l hl
    obtain ⟨cat, hcat, rfl⟩ := List.mem_map.mp hl
    simp [categoryRefs, h2 cat hcat]
  · rw [allRefs, List.flatten_eq_nil_iff]
    intro l hl
    obtain ⟨cat, hcat, rfl⟩ := List.mem_map.mp hl
    rw [categoryRefs, List.flatten_eq_nil_iff]
    intro l2 hl2
    obtain ⟨c, hc, rfl⟩ := List.mem_map.mp hl2
    simp [conceptRefs, h3 cat hcat c hc]

/-- C1: the spec claims that a chapter directory without `concept-map.yml`
is a recoverable skip — logged, reported as zero fixes and zero stubs, no
file created, and the driver continues to the next chapter. In the code
`fix_concept_map` returns `None` in that case, and `main`'s tuple
unpacking `fixed, stubs = fix_concept_map(chapter_dir)` raises a
`TypeError` that aborts the whole run before any later chapter is
processed. Evaluated at a concrete tree whose first chapter directory
lacks the concept-map file and whose second chapter is well-formed, the
driver errors out instead of continuing. -/
theorem missing_concept_map_crashes_driver :
    fixConceptMap missingMapChapter = none ∧
    runChapters [some missingMapChapter, some nextChapter] =
      Except.error "TypeError: cannot unpack non-iterable NoneType object" :=
  ⟨rfl, rfl⟩

/-- C2: after a chapter's concept map is processed, every exam-question
reference in the resulting document equals `questions/` followed by a
filename containing no directory separators, and the file of that name
exists in the chapter's `questions/` directory. -/
theorem refs_canonical_and_targets_exist (ch : Chapter) (r : FixResult)
    (hr : fixConceptMap ch = some r) (d2 : Doc)
    (hd : r.chapter.conceptMap = some d2) :
    ∀ q ∈ allRefs d2, ∃ b, q = "questions/" ++ b ∧ (∀ c ∈ b.data, c ≠ '/') ∧
      fileExists r.chapter.questions b = true := by
  obtain ⟨cm, bytes, qfs⟩ := ch
  cases cm with
  | none => rw [fixConceptMap_none_eq] at hr; cases hr
  | some doc =>
    obtain ⟨new, heq, hnd, hpr, hex⟩ := fixConceptMap_spec ⟨some doc, bytes, qfs⟩ doc rfl
    rw [heq] at hr
    injection hr with hr
    subst hr
    intro q hq
    have hd2 : (if (allRefs doc).any needsFix = true
        then mapDocRefs expectedPath doc else doc) = d2 := by
      injection hd
    subst hd2
    obtain ⟨hnf, hfe⟩ := post_state_canonical doc (qfs ++ new) hex q hq
    exact ⟨basename q, eq_of_needsFix_false hnf, basename_no_slash q, hfe⟩

theorem refs_canonical_and_targets_exist_witness :
    ∃ b, ("questions/q1.yml" : String) = "questions/" ++ b ∧
      (∀ c ∈ b.data, c ≠ '/') ∧
      fileExists exResult.chapter.questions b = true :=
  refs_canonical_and_targets_exist exChapter exResult rfl exDocAfter rfl
    "questions/q1.yml" (by decide)

/-- C3: the concept-map document is written back if and only if at least
one reference string was rewritten; stub creation alone never triggers
the write, and without a rewrite the file's bytes and parsed content are
left untouched. -/
theorem rewrite_iff_some_fix (ch : Chapter) (r : FixResult)
    (hr : fixConceptMap ch = some r) :
    (r.rewrote = true ↔ 0 < r.fixedCount) ∧
    (r.rewrote = false →
      r.chapter.cmBytes = ch.cmBytes ∧ r.chapter.conceptMap = ch.conceptMap) := by
  obtain ⟨cm, bytes, qfs⟩ := ch
  cases cm with
  | none => rw [fixConceptMap_none_eq] at hr; cases hr
  | some doc =>
    obtain ⟨new, heq, -, -, -⟩ := fixConceptMap_spec ⟨some doc, bytes, qfs⟩ doc rfl
    rw [heq] at hr
    injection hr with hr
    subst hr
    have hiff : ((allRefs doc).any needsFix = true) ↔
        (0 < (allRefs doc).countP needsFix) := by
      rw [List.any_eq_true, List.countP_pos_iff]
    refine ⟨hiff, fun hfalse => ?_⟩
    have hany : (allRefs doc).any needsFix = false := hfalse
    dsimp only
    rw [hany]
    simp

theorem rewrite_iff_some_fix_witness :
    (exResult.rewrote = true ↔ 0 < exResult.fixedCount) ∧
    (exResult.rewrote = false →
      exResult.chapter.cmBytes = exChapter.cmBytes ∧
      exResult.chapter.conceptMap = exChapter.conceptMap) :=
  rewrite_iff_some_fix exChapter exResult rfl

/-- C4: every file the run creates (present afterwards, absent before)
has exactly the fixed stub template as its content, and that template's
identifier line is the constant `id: 1` for every stub. -/
theorem created_stubs_use_template (ch : Chapter) (r : FixResult)
    (hr : fixConceptMap ch = some r) :
    (∀ p ∈ r.chapter.questions, p ∉ ch.questions → p.2 = STUB_TEMPLATE) ∧
    STUB_TEMPLATE.data.take 6 = "id: 1\n".data := by
  obtain ⟨cm, bytes, qfs⟩ := ch
  cases cm with
  | none => rw [fixConceptMap_none_eq] at hr; cases hr
  | some doc =>
    obtain ⟨new, heq, hnd, hpr, hex⟩ := fixConceptMap_spec ⟨some doc, bytes, qfs⟩ doc rfl
    rw [heq] at hr
    injection hr with hr
    subst hr
    refine ⟨?_, by decide⟩
    intro p hp hnotin
    have hp' : p ∈ qfs ++ new := hp
    rcases List.mem_append.mp hp' with hin | hin
    · exact absurd hin hnotin
    · exact (hpr p hin).1

theorem created_stubs_use_template_witness :
    (∀ p ∈ exResult.chapter.questions, p ∉ exChapter.questions →
      p.2 = STUB_TEMPLATE) ∧
    STUB_TEMPLATE.data.take 6 = "id: 1\n".data :=
  created_stubs_use_template exChapter exResult rfl

/-- C5: a second run on the state left by a first run performs zero
additional reference rewrites, creates zero additional stub files, does
not rewrite the document, and leaves the chapter exactly as it was. -/
theorem second_run_idempotent (ch : Chapter) (r : FixResult)
    (hr : fixConceptMap ch = some r) :
    fixConceptMap r.chapter =
      some { fixedCount := 0, missingCount := 0, rewrote := false,
             chapter := r.chapter } := by
  obtain ⟨cm, bytes, qfs⟩ := ch
  cases cm with
  | none => rw [fixConceptMap_none_eq] at hr; cases hr
  | some doc =>
    obtain ⟨new, heq, -, -, hex⟩ := fixConceptMap_spec ⟨some doc, bytes, qfs⟩ doc rfl
    rw [heq] at hr
    injection hr with hr
    subst hr
    have hpost := post_state_canonical doc (qfs ++ new) hex
    dsimp only
    rw [fixConceptMap_some_eq, processDoc_fix _ _ hpost]
    rfl

theorem second_run_idempotent_witness :
    fixConceptMap exResult.chapter =
      some { fixedCount := 0, missingCount := 0, rewrote := false,
             chapter := exResult.chapter } :=
  second_run_idempotent exChapter exResult rfl

/-- C6: for one reference, whether a stub is written (and the stub count
incremented) is decided solely by the existence of the target file before
the step, independently of whether the reference string itself needed
rewriting. -/
theorem stub_decision_only_existence (st : RunState) (q : String) :
    (processRef st q).1.fs =
      (if fileExists st.fs (basename q) then st.fs
       else st.fs ++ [(basename q, STUB_TEMPLATE)]) ∧
    (processRef st q).1.missingCount =
      (if fileExists st.fs (basename q) then st.missingCount
       else st.missingCount + 1) := by
  rw [processRef_eq]
  by_cases h2 : fileExists st.fs (basename q) = true <;> simp [h2]

/-- C7: the canonical form of a reference is `questions/` followed by its
last path segment (`needsFix` holds exactly when the string differs from
that form); the run's fixed counter equals the number of non-canonical
references, and every reference position is replaced by its canonical
form. -/
theorem fixed_count_counts_noncanonical (ch : Chapter) (doc : Doc) (r : FixResult)
    (h : ch.conceptMap = some doc) (hr : fixConceptMap ch = some r) :
    r.fixedCount = (allRefs doc).countP needsFix ∧
    (∀ d2, r.chapter.conceptMap = some d2 →
      allRefs d2 = (allRefs doc).map expectedPath) := by
  obtain ⟨cm, bytes, qfs⟩ := ch
  have hcm : cm = some doc := h
  subst hcm
  obtain ⟨new, heq, -, -, -⟩ := fixConceptMap_spec ⟨some doc, bytes, qfs⟩ doc rfl
  rw [heq] at hr
  injection hr with hr
  subst hr
  refine ⟨rfl, ?_⟩
  intro d2 hd2
  have hd2' : (if (allRefs doc).any needsFix = true
      then mapDocRefs expectedPath doc else doc) = d2 := by
    injection hd2
  subst hd2'
  by_cases hub : (allRefs doc).any needsFix = true
  · rw [if_pos hub, allRefs_map]
  · rw [if_neg hub]
    exact (map_refs_id (fun q hq =>
      (eq_of_needsFix_false (all_canonical_of_any_false hub q hq)).symm)).symm

theorem fixed_count_counts_noncanonical_witness :
    exResult.fixedCount = (allRefs exDoc).countP needsFix ∧
    (∀ d2, exResult.chapter.conceptMap = some d2 →
      allRefs d2 = (allRefs exDoc).map expectedPath) :=
  fixed_count_counts_noncanonical exChapter exDoc exResult rfl rfl

/-- C8: the files created by a run have pairwise distinct names, each
absent before the run, and the stub counter equals their number — so a
second reference to the same missing filename sees the file created by
the first one and performs no further stub write. -/
theorem one_stub_write_per_filename (ch : Chapter) (r : FixResult)
    (hr : fixConceptMap ch = some r) :
    ∃ new, r.chapter.questions = ch.questions ++ new ∧
      (fileNames new).Nodup ∧
      (∀ n ∈ fileNames new, fileExists ch.questions n = false) ∧
      r.missingCount = new.length := by
  obtain ⟨cm, bytes, qfs⟩ := ch
  cases cm with
  | none => rw [fixConceptMap_none_eq] at hr; cases hr
  | some doc =>
    obtain ⟨new, heq, hnd, hpr, hex⟩ := fixConceptMap_spec ⟨some doc, bytes, qfs⟩ doc rfl
    rw [heq] at hr
    injection hr with hr
    subst hr
    refine ⟨new, rfl, hnd, ?_, rfl⟩
    intro n hn
    obtain ⟨p, hp, rfl⟩ := List.mem_map.mp hn
    exact (hpr p hp).2

theorem one_stub_write_per_filename_witness :
    ∃ new, exResult.chapter.questions = exChapter.questions ++ new ∧
      (fileNames new).Nodup ∧
      (∀ n ∈ fileNames new, fileExists exChapter.questions n = false) ∧
      exResult.missingCount = new.length :=
  one_stub_write_per_filename exChapter exResult rfl

/-- C9: processing never changes the shape of the document: the resulting
document is exactly the input with every reference replaced in place by
its canonical form (`mapDocRefs`), so all keys, list lengths and element
order are preserved. -/
theorem document_shape_preserved (ch : Chapter) (doc : Doc) (r : FixResult)
    (h : ch.conceptMap = some doc) (hr : fixConceptMap ch = some r) :
    ∃ d2, r.chapter.conceptMap = some d2 ∧ d2 = mapDocRefs expectedPath doc ∧
      d2.others = doc.others ∧ (allRefs d2).length = (allRefs doc).length := by
  obtain ⟨cm, bytes, qfs⟩ := ch
  have hcm : cm = some doc := h
  subst hcm
  obtain ⟨new, heq, -, -, -⟩ := fixConceptMap_spec ⟨some doc, bytes, qfs⟩ doc rfl
  rw [heq] at hr
  injection hr with hr
  subst hr
  refine ⟨_, rfl, ?_, ?_, ?_⟩
  · by_cases hub : (allRefs doc).any needsFix = true
    · rw [if_pos hub]
    · rw [if_neg hub]
      exact (mapDocRefs_self expectedPath doc (fun q hq =>
        (eq_of_needsFix_false (all_canonical_of_any_false hub q hq)).symm)).symm
  · by_cases hub : (allRefs doc).any needsFix = true
    · rw [if_pos hub]
      rfl
    · rw [if_neg hub]
  · by_cases hub : (allRefs doc).any needsFix = true
    · rw [if_pos hub, allRefs_map, List.length_map]
    · rw [if_neg hub]

theorem document_shape_preserved_witness :
    ∃ d2, exResult.chapter.conceptMap = some d2 ∧
      d2 = mapDocRefs expectedPath exDoc ∧
      d2.others = exDoc.others ∧ (allRefs d2).length = (allRefs exDoc).length :=
  document_shape_preserved exChapter exDoc exResult rfl rfl

/-- C10: a loaded document lacking the `concept_map` key, or whose
categories all lack the `concepts` key, or whose concepts all lack the
`exam_questions` key, is processed without error as an empty listing:
zero fixes, zero stubs, no rewrite, chapter left untouched. -/
theorem missing_keys_noop (ch : Chapter) (doc : Doc) (h : ch.conceptMap = some doc)
    (hmiss : doc.concept_map = none ∨
      (∀ cat ∈ doc.concept_map.getD [], cat.concepts = none) ∨
      (∀ cat ∈ doc.concept_map.getD [], ∀ c ∈ cat.concepts.getD [],
        c.exam_questions = none)) :
    fixConceptMap ch =
      some { fixedCount := 0, missingCount := 0, rewrote := false,
             chapter := ch } := by
  have hnil : allRefs doc = [] := allRefs_nil_of_missing_keys doc hmiss
  obtain ⟨cm, bytes, qfs⟩ := ch
  have hcm : cm = some doc := h
  subst hcm
  rw [fixConceptMap_some_eq,
    processDoc_fix doc _ (fun q hq => absurd (hnil ▸ hq) (List.not_mem_nil q))]
  rfl

theorem missing_keys_noop_witness :
    fixConceptMap exChapterNoKeys =
      some { fixedCount := 0, missingCount := 0, rewrote := false,
             chapter := exChapterNoKeys } :=
  missing_keys_noop exChapterNoKeys { concept_map := none, others := [("title", "T")] }
    rfl (Or.inl rfl)

end ConceptMaps
